import Mathlib

/-!
Verification of the alias-tracking lattice element of a copy-propagation
pass (`AliasedRegisters` / `AliasDomain`, file
`src/opt/copy-propagation/AliasedRegisters.h`).

The header declares the `Value` variant (with its equality operator inline),
the reserved `RESULT_REGISTER` index, the `AliasedRegisters` partition
interface and the `AliasDomain` tri-state wrapper (whose `update` is inline).
The member-function bodies of `AliasedRegisters` are not part of the sources,
so the partition operations below are modelled from the specification's
description of them (union of groups on `move`, removal on `break_alias`,
intersection of the two equivalence relations computed from group membership
on `join_with`, lowest-insertion-rank register selection for
`get_representative`, and so on).  Pointer payloads (`DexString*`, `DexType*`,
`DexField*`) are modelled by their identity as a natural number.
-/

namespace aliased_registers

/-- Register indices, `using Register = uint32_t` in the source.  Indices are
modelled as naturals; no arithmetic is ever performed on them, only
comparisons, so no wrap-around is involved. -/
abbrev Register := Nat

/-- The reserved result register,
`std::numeric_limits<Register>::max() - 1 = 2^32 - 2`. -/
def RESULT_REGISTER : Register := 2 ^ 32 - 2

/-- The tagged `Value` variant: one constructor per `Value::Kind` of the
source, each carrying exactly the payload the source stores for that kind. -/
inductive Value where
  | register (r : Register)
  | const_literal (l : Int)
  | const_literal_upper (l : Int)
  | const_string (s : Nat)
  | const_type (t : Nat)
  | static_final (f : Nat)
  | static_final_upper (f : Nat)
  | none
deriving DecidableEq, Repr

/-- The `Value::Kind` enumeration of the source. -/
inductive Value.Kind where
  | REGISTER
  | CONST_LITERAL
  | CONST_LITERAL_UPPER
  | CONST_STRING
  | CONST_TYPE
  | STATIC_FINAL
  | STATIC_FINAL_UPPER
  | NONE
deriving DecidableEq, Repr

/-- The `m_kind` tag of a `Value`. -/
def Value.kind : Value → Value.Kind
  | .register _ => .REGISTER
  | .const_literal _ => .CONST_LITERAL
  | .const_literal_upper _ => .CONST_LITERAL_UPPER
  | .const_string _ => .CONST_STRING
  | .const_type _ => .CONST_TYPE
  | .static_final _ => .STATIC_FINAL
  | .static_final_upper _ => .STATIC_FINAL_UPPER
  | .none => .NONE

/-- The source's `Value::operator==`: kinds must match, then the payload is
compared per kind; any two `NONE` values are equal. -/
def Value.beq : Value → Value → Bool
  | .register r1, .register r2 => decide (r1 = r2)
  | .const_literal l1, .const_literal l2 => decide (l1 = l2)
  | .const_literal_upper l1, .const_literal_upper l2 => decide (l1 = l2)
  | .const_string s1, .const_string s2 => decide (s1 = s2)
  | .const_type t1, .const_type t2 => decide (t1 = t2)
  | .static_final f1, .static_final f2 => decide (f1 = f2)
  | .static_final_upper f1, .static_final_upper f2 => decide (f1 = f2)
  | .none, .none => true
  | _, _ => false

/-- The source's `Value::is_none`. -/
def Value.is_none : Value → Bool
  | .none => true
  | _ => false

/-- The source's `Value::is_register`. -/
def Value.is_register : Value → Bool
  | .register _ => true
  | _ => false

/-- The source's `Value::reg` accessor (asserted to be called on a
register-kind value only; totalised with a default here, and every use below
is guarded by `is_register`). -/
def Value.reg : Value → Register
  | .register r => r
  | _ => 0

/-- Modelled from the spec: the alias partition `AliasedRegisters`.  `groups`
is the dynamic partition of the values observed so far into disjoint alias
groups of size at least two (isolated values are logically absent), and
`ranks` holds the insertion rank of each register-kind member of a group (the
source's `m_insert_order`: registers are the only values whose insertion is
tracked, being the only candidates for a representative). -/
structure AliasedRegisters where
  groups : List (List Value)
  ranks : List (Value × Nat)
deriving DecidableEq, Repr

/-- A fresh, empty partition (the source's default constructor). -/
def AliasedRegisters.empty : AliasedRegisters := ⟨[], []⟩

/-- Modelled from the spec: `are_aliases(r1, r2)` — true iff the two values
are in the same group (including transitively), trivially true when the
values are equal, even when absent from the partition. -/
def AliasedRegisters.are_aliases (s : AliasedRegisters) (a b : Value) : Bool :=
  decide (a = b) ||
    s.groups.any (fun g => decide (a ∈ g) && decide (b ∈ g))

/-- Modelled from the spec: the group a value belongs to, or the value alone
when it is isolated. -/
def AliasedRegisters.groupOf (s : AliasedRegisters) (v : Value) : List Value :=
  match s.groups.find? (fun g => decide (v ∈ g)) with
  | some g => g
  | Option.none => [v]

/-- Insertion rank of a value, when it has one. -/
def lookupRank (ranks : List (Value × Nat)) (v : Value) : Option Nat :=
  (ranks.find? (fun p => decide (p.1 = v))).map Prod.snd

/-- Largest insertion rank present among the members of `g`. -/
def groupMaxRank (ranks : List (Value × Nat)) (g : List Value) : Option Nat :=
  (ranks.filter (fun p => decide (p.1 ∈ g))).foldl
    (fun acc p =>
      match acc with
      | Option.none => some p.2
      | some m => some (max m p.2))
    Option.none

/-- Modelled from the spec: each register-kind member of a freshly formed
group that has no insertion rank yet receives `1 + ` the group's maximum
insertion number (`0` when the group had none), scanning the group in order —
the source header's comment on `m_insert_order`. -/
def assignRanks (ranks : List (Value × Nat)) (g : List Value) :
    List (Value × Nat) :=
  g.foldl
    (fun rs v =>
      if v.is_register && (lookupRank rs v).isNone then
        match groupMaxRank rs g with
        | Option.none => rs ++ [(v, 0)]
        | some m => rs ++ [(v, m + 1)]
      else rs)
    ranks

/-- Modelled from the spec: `move(moving, group)` — declares `moving` an
alias of `group` by unioning the two groups (inserting either value as a
fresh singleton first when absent); members of the `group` side precede the
`moving` side when fresh insertion ranks are handed out, so that the aliased-
to value becomes the older one.  A no-op when the two are already aliased. -/
def AliasedRegisters.move (s : AliasedRegisters) (moving grp : Value) :
    AliasedRegisters :=
  if s.are_aliases moving grp then s
  else
    let gB := s.groupOf grp
    let gA := s.groupOf moving
    let newGroup := gB ++ gA
    let rest := s.groups.filter (fun g => !(decide (g = gA) || decide (g = gB)))
    ⟨newGroup :: rest, assignRanks s.ranks newGroup⟩

/-- Modelled from the spec: `break_alias(r)` — removes `r` from whatever
group it belongs to; a remaining group of fewer than two members dissolves,
and ranks of values no longer in any group are dropped. -/
def AliasedRegisters.break_alias (s : AliasedRegisters) (r : Value) :
    AliasedRegisters :=
  let gs := (s.groups.map (fun g => g.filter (fun w => decide (w ≠ r)))).filter
    (fun g => decide (2 ≤ g.length))
  ⟨gs, s.ranks.filter (fun p => gs.any (fun g => decide (p.1 ∈ g)))⟩

/-- Modelled from the spec: `clear()` resets to the empty partition. -/
def AliasedRegisters.clear (_ : AliasedRegisters) : AliasedRegisters :=
  AliasedRegisters.empty

/-- Candidates for a representative of `r`'s group: the register-kind members
of the group (or `r` itself when isolated), restricted to the addressing
bound when one is supplied. -/
def AliasedRegisters.eligible (s : AliasedRegisters) (r : Value)
    (max_addressable : Option Register) : List Value :=
  (s.groupOf r).filter
    (fun v =>
      v.is_register &&
        match max_addressable with
        | Option.none => true
        | some k => decide (v.reg ≤ k))

/-- Strict comparison of insertion ranks: an absent rank compares as larger
than every present one. -/
def betterRank : Option Nat → Option Nat → Bool
  | some a, some b => decide (a < b)
  | some _, Option.none => true
  | Option.none, _ => false

/-- One comparison step of the representative search: keep the candidate of
lower insertion rank, the earlier one on ties. -/
def rankStep (s : AliasedRegisters) (best : Option Value) (v : Value) :
    Option Value :=
  match best with
  | Option.none => some v
  | some b =>
      if betterRank (lookupRank s.ranks v) (lookupRank s.ranks b) then some v
      else some b

/-- First candidate of minimal insertion rank. -/
def minByRank (s : AliasedRegisters) (cands : List Value) : Option Value :=
  cands.foldl (rankStep s) Option.none

/-- Modelled from the spec: `get_representative(r, max_addressable)` — among
the register-kind members of `r`'s group (those within the bound, when one is
given), return the index of the one with the lowest insertion rank; an
explicit failure (`Option.none`) when no eligible member exists. -/
def AliasedRegisters.get_representative (s : AliasedRegisters) (r : Value)
    (max_addressable : Option Register) : Option Register :=
  (minByRank s (s.eligible r max_addressable)).map Value.reg

/-- Modelled from the spec: refinement of one alias group by the equivalence
relation of another partition — the blocks of `g` whose members are mutually
aliased in `o`. -/
def refineBy (o : AliasedRegisters) (g : List Value) : List (List Value) :=
  (g.map (fun v => g.filter (fun w => o.are_aliases v w))).dedup

/-- Modelled from the spec: `join_with(other)` — the partition whose alias
relation holds exactly where both operands' relations hold, computed from
group membership by refining each group of `self` by `other`'s relation;
blocks that shrink below two members dissolve, and ranks of values no longer
in any group are dropped. -/
def AliasedRegisters.join_with (s o : AliasedRegisters) : AliasedRegisters :=
  let gs := ((s.groups.map (refineBy o)).flatten).filter
    (fun g => decide (2 ≤ g.length))
  ⟨gs, s.ranks.filter (fun p => gs.any (fun g => decide (p.1 ∈ g)))⟩

/-- One step of coalescing: insert a group, merging it with every existing
group it touches. -/
def insertGroup (gs : List (List Value)) (g : List Value) :
    List (List Value) :=
  let pr := gs.partition (fun h => h.any (fun v => decide (v ∈ g)))
  ((g ++ pr.1.flatten).dedup) :: pr.2

/-- Transitive coalescing of a list of possibly-overlapping groups into a
disjoint partition. -/
def coalesce (gs : List (List Value)) : List (List Value) :=
  gs.foldl insertGroup []

/-- Modelled from the spec: `meet_with(other)` — unions the aliasing facts of
both operands, transitively closed; register members that end up in a group
without a rank receive fresh ones. -/
def AliasedRegisters.meet_with (s o : AliasedRegisters) : AliasedRegisters :=
  let gs := (coalesce (s.groups ++ o.groups)).filter
    (fun g => decide (2 ≤ g.length))
  let base := s.ranks.filter (fun p => gs.any (fun g => decide (p.1 ∈ g)))
  ⟨gs, gs.foldl assignRanks base⟩

/-- Modelled from the spec: `widen_with` is plain `join_with` — the lattice
over the finitely many values of one analysis unit has finite height, so no
separate widening heuristic is applied. -/
def AliasedRegisters.widen_with (s o : AliasedRegisters) : AliasedRegisters :=
  s.join_with o

/-- Modelled from the spec: `narrow_with` is plain `meet_with`. -/
def AliasedRegisters.narrow_with (s o : AliasedRegisters) : AliasedRegisters :=
  s.meet_with o

/-- All pairs within a group of `s` are aliased in `o` (facts of `s` are a
subset of the facts of `o`). -/
def factsSubset (s o : AliasedRegisters) : Bool :=
  s.groups.all (fun g => g.all (fun a => g.all (fun b => o.are_aliases a b)))

/-- Modelled from the spec: `leq(other)` — `A.leq(B)` iff every pair aliased
in `B` is also aliased in `A`. -/
def AliasedRegisters.leq (s o : AliasedRegisters) : Bool :=
  factsSubset o s

/-- Modelled from the spec: `equals(other)` — structural equality of the
induced partitions (same aliasing facts), independent of insertion ranks. -/
def AliasedRegisters.equals (s o : AliasedRegisters) : Bool :=
  factsSubset s o && factsSubset o s

/-- The tri-state tag of the abstract-domain scaffolding. -/
inductive AbstractValueKind where
  | Top
  | Value
  | Bottom
deriving DecidableEq, Repr

/-- The `AliasDomain` wrapper: a tri-state tag plus the wrapped concrete
partition. -/
structure AliasDomain where
  kind : AbstractValueKind
  value : AliasedRegisters
deriving DecidableEq, Repr

/-- The scaffolding's `is_bottom()`. -/
def AliasDomain.is_bottom (d : AliasDomain) : Bool :=
  decide (d.kind = AbstractValueKind.Bottom)

/-- Modelled from the spec: the kind a concrete partition reports — `Top`
when it records no aliasing facts (empty partition), `Value` otherwise. -/
def AliasedRegisters.kindOf (s : AliasedRegisters) : AbstractValueKind :=
  if s.groups.isEmpty then AbstractValueKind.Top else AbstractValueKind.Value

/-- Modelled from the spec: the scaffolding's `normalize()` (from the
abstract-domain framework header, not among the sources) — re-derives the
tri-state tag from the wrapped value, collapsing to `Top` when the partition
is empty. -/
def AliasDomain.normalize (d : AliasDomain) : AliasDomain :=
  ⟨d.value.kindOf, d.value⟩

/-- The source's inline `AliasDomain::update`: return unchanged when
`Bottom`, otherwise apply the mutation to the wrapped value and
re-normalize. -/
def AliasDomain.update (d : AliasDomain)
    (operation : AliasedRegisters → AliasedRegisters) : AliasDomain :=
  if d.is_bottom then d
  else AliasDomain.normalize ⟨d.kind, operation d.value⟩

/-- Well-formedness of a partition state: every group has at least two
members and no duplicates, and two groups sharing a member are the same
group. -/
def WF (s : AliasedRegisters) : Prop :=
  (∀ g ∈ s.groups, 2 ≤ g.length ∧ g.Nodup) ∧
  ∀ g1 ∈ s.groups, ∀ g2 ∈ s.groups, (∃ v ∈ g1, v ∈ g2) → g1 = g2

instance (s : AliasedRegisters) : Decidable (WF s) := by
  unfold WF; infer_instance

/-- Pairwise disjointness (two groups sharing a member are the same list)
plus per-group duplicate freedom. -/
def PDisj (gs : List (List Value)) : Prop :=
  (∀ g ∈ gs, g.Nodup) ∧
    ∀ g1 ∈ gs, ∀ g2 ∈ gs, (∃ v ∈ g1, v ∈ g2) → g1 = g2

/-- States reachable by the operation set of the partition from a fresh
instance. -/
inductive Reachable : AliasedRegisters → Prop where
  | empty : Reachable AliasedRegisters.empty
  | move (a b : Value) {s : AliasedRegisters} :
      Reachable s → Reachable (s.move a b)
  | break_alias (r : Value) {s : AliasedRegisters} :
      Reachable s → Reachable (s.break_alias r)
  | clear {s : AliasedRegisters} : Reachable s → Reachable s.clear
  | join {s o : AliasedRegisters} :
      Reachable s → Reachable o → Reachable (s.join_with o)
  | meet {s o : AliasedRegisters} :
      Reachable s → Reachable o → Reachable (s.meet_with o)
  | widen {s o : AliasedRegisters} :
      Reachable s → Reachable o → Reachable (s.widen_with o)
  | narrow {s o : AliasedRegisters} :
      Reachable s → Reachable o → Reachable (s.narrow_with o)

/-! Concrete example states used in the theorems below. -/

/-- Partition with groups `{1,2}` and `{3,4}` (spec's join example, P1). -/
def P1ex : AliasedRegisters :=
  ⟨[[Value.register 1, Value.register 2],
    [Value.register 3, Value.register 4]],
   [(Value.register 1, 0), (Value.register 2, 1),
    (Value.register 3, 2), (Value.register 4, 3)]⟩

/-- Partition with group `{1,2}` only — `3` and `4` isolated (spec's join
example, P2). -/
def P2ex : AliasedRegisters :=
  ⟨[[Value.register 1, Value.register 2]],
   [(Value.register 1, 0), (Value.register 2, 1)]⟩

/-- The merges `move(2,1); move(3,2)` in that order. -/
def seqA : AliasedRegisters :=
  (AliasedRegisters.empty.move (Value.register 2) (Value.register 1)).move
    (Value.register 3) (Value.register 2)

/-- The same set of merges in the other order: `move(3,2); move(2,1)`. -/
def seqB : AliasedRegisters :=
  (AliasedRegisters.empty.move (Value.register 3) (Value.register 2)).move
    (Value.register 2) (Value.register 1)

/-- Partition with the single group `{0,1}`. -/
def A0ex : AliasedRegisters :=
  ⟨[[Value.register 0, Value.register 1]],
   [(Value.register 0, 0), (Value.register 1, 1)]⟩

/-- Partition with the single group `{7,9}` (register 7 older), for the
addressing-bound examples. -/
def sBnd : AliasedRegisters :=
  ⟨[[Value.register 7, Value.register 9]],
   [(Value.register 7, 0), (Value.register 9, 1)]⟩

/-! Basic list facts used throughout. -/

theorem two_mem_length {α : Type} {a b : α} {l : List α}
    (ha : a ∈ l) (hb : b ∈ l) (hab : a ≠ b) : 2 ≤ l.length := by
  match l with
  | [] => cases ha
  | [x] =>
      rcases List.mem_singleton.mp ha with rfl
      rcases List.mem_singleton.mp hb with rfl
      exact absurd rfl hab
  | x :: y :: t => simp only [List.length_cons]; omega

/-! Facts about `are_aliases`. -/

theorem are_aliases_iff (s : AliasedRegisters) (a b : Value) :
    s.are_aliases a b = true ↔
      a = b ∨ ∃ g ∈ s.groups, a ∈ g ∧ b ∈ g := by
  simp [AliasedRegisters.are_aliases, List.any_eq_true]

theorem are_aliases_refl (s : AliasedRegisters) (a : Value) :
    s.are_aliases a a = true :=
  (are_aliases_iff s a a).mpr (Or.inl rfl)

theorem mem_group_are_aliases {s : AliasedRegisters} {g : List Value}
    {a b : Value} (hg : g ∈ s.groups) (ha : a ∈ g) (hb : b ∈ g) :
    s.are_aliases a b = true :=
  (are_aliases_iff s a b).mpr (Or.inr ⟨g, hg, ha, hb⟩)

theorem are_aliases_symm (s : AliasedRegisters) (a b : Value) :
    s.are_aliases a b = s.are_aliases b a := by
  have h : ∀ x y : Value, s.are_aliases x y = true → s.are_aliases y x = true := by
    intro x y hxy
    rcases (are_aliases_iff s x y).mp hxy with rfl | ⟨g, hg, h1, h2⟩
    · exact are_aliases_refl s x
    · exact mem_group_are_aliases hg h2 h1
  cases hab : s.are_aliases a b
  · cases hba : s.are_aliases b a
    · rfl
    · exact absurd (h b a hba) (by simp [hab])
  · exact (h a b hab).symm

theorem are_aliases_trans {s : AliasedRegisters} (hs : WF s) {a b c : Value}
    (h1 : s.are_aliases a b = true) (h2 : s.are_aliases b c = true) :
    s.are_aliases a c = true := by
  rcases (are_aliases_iff s a b).mp h1 with rfl | ⟨g1, hg1, hag1, hbg1⟩
  · exact h2
  rcases (are_aliases_iff s b c).mp h2 with rfl | ⟨g2, hg2, hbg2, hcg2⟩
  · exact h1
  have hgg : g1 = g2 := hs.2 g1 hg1 g2 hg2 ⟨b, hbg1, hbg2⟩
  exact mem_group_are_aliases hg1 hag1 (hgg ▸ hcg2)

/-! Facts about `groupOf`. -/

theorem groupOf_spec (s : AliasedRegisters) (v : Value) :
    (s.groupOf v ∈ s.groups ∧ v ∈ s.groupOf v) ∨
      (s.groupOf v = [v] ∧ ∀ g ∈ s.groups, v ∉ g) := by
  unfold AliasedRegisters.groupOf
  cases hf : s.groups.find? (fun g => decide (v ∈ g)) with
  | none =>
      right
      refine ⟨rfl, ?_⟩
      intro g hg hvg
      have h := List.find?_eq_none.mp hf g hg
      simp only [decide_eq_true_eq] at h
      exact h hvg
  | some g =>
      left
      refine ⟨List.mem_of_find?_eq_some hf, ?_⟩
      have h := List.find?_some hf
      simpa using h

theorem mem_groupOf (s : AliasedRegisters) (v : Value) : v ∈ s.groupOf v := by
  rcases groupOf_spec s v with ⟨_, h⟩ | ⟨h, _⟩
  · exact h
  · rw [h]; exact List.mem_singleton_self v

theorem groupOf_nodup {s : AliasedRegisters} (hs : WF s) (v : Value) :
    (s.groupOf v).Nodup := by
  rcases groupOf_spec s v with ⟨hmem, _⟩ | ⟨heq, _⟩
  · exact (hs.1 _ hmem).2
  · rw [heq]; exact List.nodup_singleton v

theorem groupOf_disjoint {s : AliasedRegisters} (hs : WF s) {a b : Value}
    (hal : s.are_aliases a b = false) :
    ∀ v, v ∈ s.groupOf a → v ∈ s.groupOf b → False := by
  intro v hva hvb
  rcases groupOf_spec s a with ⟨hga, haa⟩ | ⟨hea, hna⟩ <;>
    rcases groupOf_spec s b with ⟨hgb, hbb⟩ | ⟨heb, hnb⟩
  · have heq : s.groupOf a = s.groupOf b := hs.2 _ hga _ hgb ⟨v, hva, hvb⟩
    have hbb' : b ∈ s.groupOf a := by rw [heq]; exact hbb
    have : s.are_aliases a b = true := mem_group_are_aliases hga haa hbb'
    rw [this] at hal; cases hal
  · rw [heb] at hvb; rcases List.mem_singleton.mp hvb with rfl
    exact hnb _ hga hva
  · rw [hea] at hva; rcases List.mem_singleton.mp hva with rfl
    exact hna _ hgb hvb
  · rw [hea] at hva; rw [heb] at hvb
    rcases List.mem_singleton.mp hva with rfl
    rcases List.mem_singleton.mp hvb with rfl
    rw [are_aliases_refl] at hal; cases hal

/-! Preservation of well-formedness by the operations. -/

theorem WF_empty : WF AliasedRegisters.empty := by
  constructor <;> simp [AliasedRegisters.empty]

theorem break_alias_groups (s : AliasedRegisters) (r : Value) :
    (s.break_alias r).groups =
      (s.groups.map (fun g => g.filter (fun w => decide (w ≠ r)))).filter
        (fun g => decide (2 ≤ g.length)) := rfl

theorem WF_break_alias {s : AliasedRegisters} (hs : WF s) (r : Value) :
    WF (s.break_alias r) := by
  rw [WF, break_alias_groups]
  constructor
  · intro g hg
    rw [List.mem_filter] at hg
    obtain ⟨hgm, hlen⟩ := hg
    rw [List.mem_map] at hgm
    obtain ⟨g0, hg0, rfl⟩ := hgm
    exact ⟨by simpa using hlen, ((hs.1 g0 hg0).2).filter _⟩
  · rintro g1 hg1 g2 hg2 ⟨v, hv1, hv2⟩
    rw [List.mem_filter] at hg1 hg2
    rw [List.mem_map] at hg1 hg2
    obtain ⟨⟨h1, hh1, rfl⟩, _⟩ := hg1
    obtain ⟨⟨h2, hh2, rfl⟩, _⟩ := hg2
    have heq : h1 = h2 :=
      hs.2 h1 hh1 h2 hh2 ⟨v, (List.mem_filter.mp hv1).1, (List.mem_filter.mp hv2).1⟩
    rw [heq]

theorem move_of_not_aliased {s : AliasedRegisters} {moving grp : Value}
    (hal : s.are_aliases moving grp = false) :
    s.move moving grp =
      ⟨(s.groupOf grp ++ s.groupOf moving) ::
          s.groups.filter
            (fun g =>
              !(decide (g = s.groupOf moving) || decide (g = s.groupOf grp))),
        assignRanks s.ranks (s.groupOf grp ++ s.groupOf moving)⟩ := by
  rw [AliasedRegisters.move, if_neg]
  simp [hal]

theorem WF_move {s : AliasedRegisters} (hs : WF s) (moving grp : Value) :
    WF (s.move moving grp) := by
  cases hal : s.are_aliases moving grp with
  | true =>
      rw [AliasedRegisters.move, if_pos (by simp [hal])]
      exact hs
  | false =>
      rw [move_of_not_aliased hal]
      have halsym : s.are_aliases grp moving = false := by
        rw [are_aliases_symm]; exact hal
      have hdisj : ∀ v, v ∈ s.groupOf grp → v ∈ s.groupOf moving → False :=
        groupOf_disjoint hs halsym
      have hnotrest :
          ∀ v, v ∈ s.groupOf grp ++ s.groupOf moving →
            ∀ g ∈ s.groups,
              g ≠ s.groupOf moving → g ≠ s.groupOf grp → v ∉ g := by
        intro v hv g hg hgA hgB hvg
        rcases List.mem_append.mp hv with hvB | hvA
        · rcases groupOf_spec s grp with ⟨hmem, _⟩ | ⟨heq, hnone⟩
          · exact hgB (hs.2 g hg _ hmem ⟨v, hvg, hvB⟩)
          · rw [heq] at hvB; rcases List.mem_singleton.mp hvB with rfl
            exact hnone g hg hvg
        · rcases groupOf_spec s moving with ⟨hmem, _⟩ | ⟨heq, hnone⟩
          · exact hgA (hs.2 g hg _ hmem ⟨v, hvg, hvA⟩)
          · rw [heq] at hvA; rcases List.mem_singleton.mp hvA with rfl
            exact hnone g hg hvg
      constructor
      · intro g hg
        rcases List.mem_cons.mp hg with rfl | hg'
        · constructor
          · have h1 : 0 < (s.groupOf grp).length :=
              List.length_pos.mpr (List.ne_nil_of_mem (mem_groupOf s grp))
            have h2 : 0 < (s.groupOf moving).length :=
              List.length_pos.mpr (List.ne_nil_of_mem (mem_groupOf s moving))
            rw [List.length_append]; omega
          · exact List.Nodup.append (groupOf_nodup hs grp)
              (groupOf_nodup hs moving) (fun v hv1 hv2 => hdisj v hv1 hv2)
        · rw [List.mem_filter] at hg'
          exact hs.1 g hg'.1
      · rintro g1 hg1 g2 hg2 ⟨v, hv1, hv2⟩
        rcases List.mem_cons.mp hg1 with rfl | hg1' <;>
          rcases List.mem_cons.mp hg2 with h2eq | hg2'
        · rw [h2eq]
        · exfalso
          rw [List.mem_filter] at hg2'
          have hpred := hg2'.2
          simp only [Bool.not_eq_true', Bool.or_eq_false_iff,
            decide_eq_false_iff_not] at hpred
          exact hnotrest v hv1 g2 hg2'.1 hpred.1 hpred.2 hv2
        · exfalso
          rw [List.mem_filter] at hg1'
          have hpred := hg1'.2
          simp only [Bool.not_eq_true', Bool.or_eq_false_iff,
            decide_eq_false_iff_not] at hpred
          rw [h2eq] at hv2
          exact hnotrest v hv2 g1 hg1'.1 hpred.1 hpred.2 hv1
        · rw [List.mem_filter] at hg1' hg2'
          exact hs.2 g1 hg1'.1 g2 hg2'.1 ⟨v, hv1, hv2⟩

/-! The join: refinement of each group by the other partition's relation. -/

theorem mem_refineBy {o : AliasedRegisters} {g c : List Value} :
    c ∈ refineBy o g ↔
      ∃ v ∈ g, g.filter (fun w => o.are_aliases v w) = c := by
  unfold refineBy
  rw [List.mem_dedup, List.mem_map]

theorem join_with_groups (s o : AliasedRegisters) :
    (s.join_with o).groups =
      ((s.groups.map (refineBy o)).flatten).filter
        (fun g => decide (2 ≤ g.length)) := rfl

theorem mem_join_groups {s o : AliasedRegisters} {c : List Value} :
    c ∈ (s.join_with o).groups ↔
      (∃ g ∈ s.groups, ∃ v ∈ g,
          g.filter (fun w => o.are_aliases v w) = c) ∧ 2 ≤ c.length := by
  rw [join_with_groups, List.mem_filter, List.mem_flatten]
  constructor
  · rintro ⟨⟨L, hL, hcL⟩, hlen⟩
    rw [List.mem_map] at hL
    obtain ⟨g, hg, rfl⟩ := hL
    obtain ⟨v, hv, hc⟩ := mem_refineBy.mp hcL
    exact ⟨⟨g, hg, v, hv, hc⟩, by simpa using hlen⟩
  · rintro ⟨⟨g, hg, v, hv, hc⟩, hlen⟩
    refine ⟨⟨refineBy o g, List.mem_map.mpr ⟨g, hg, rfl⟩,
      mem_refineBy.mpr ⟨v, hv, hc⟩⟩, by simpa using hlen⟩

theorem WF_join_with {s o : AliasedRegisters} (hs : WF s) (ho : WF o) :
    WF (s.join_with o) := by
  constructor
  · intro c hc
    obtain ⟨⟨g, hg, v, hv, rfl⟩, hlen⟩ := mem_join_groups.mp hc
    exact ⟨hlen, ((hs.1 g hg).2).filter _⟩
  · rintro c1 hc1 c2 hc2 ⟨v, hv1, hv2⟩
    obtain ⟨⟨g1, hg1, v1, hvg1, rfl⟩, _⟩ := mem_join_groups.mp hc1
    obtain ⟨⟨g2, hg2, v2, hvg2, rfl⟩, _⟩ := mem_join_groups.mp hc2
    have hg12 : g1 = g2 :=
      hs.2 g1 hg1 g2 hg2
        ⟨v, (List.mem_filter.mp hv1).1, (List.mem_filter.mp hv2).1⟩
    subst hg12
    have h1v : o.are_aliases v1 v = true := (List.mem_filter.mp hv1).2
    have h2v : o.are_aliases v2 v = true := (List.mem_filter.mp hv2).2
    have h12 : o.are_aliases v1 v2 = true :=
      are_aliases_trans ho h1v (by rw [are_aliases_symm]; exact h2v)
    apply List.filter_congr
    intro w hw
    cases hx : o.are_aliases v2 w
    · cases hy : o.are_aliases v1 w
      · rfl
      · exfalso
        have : o.are_aliases v2 w = true :=
          are_aliases_trans ho (by rw [are_aliases_symm]; exact h12) hy
        rw [this] at hx; cases hx
    · exact are_aliases_trans ho h12 hx

theorem join_are_aliases {s o : AliasedRegisters} (_hs : WF s) (ho : WF o)
    (a b : Value) :
    (s.join_with o).are_aliases a b = true ↔
      s.are_aliases a b = true ∧ o.are_aliases a b = true := by
  by_cases hab : a = b
  · subst hab
    simp [are_aliases_refl]
  constructor
  · intro h
    rcases (are_aliases_iff _ a b).mp h with rfl | ⟨c, hc, hac, hbc⟩
    · exact absurd rfl hab
    obtain ⟨⟨g, hg, v, hv, rfl⟩, _⟩ := mem_join_groups.mp hc
    have hag := (List.mem_filter.mp hac).1
    have hbg := (List.mem_filter.mp hbc).1
    have hva : o.are_aliases v a = true := (List.mem_filter.mp hac).2
    have hvb : o.are_aliases v b = true := (List.mem_filter.mp hbc).2
    refine ⟨mem_group_are_aliases hg hag hbg, ?_⟩
    exact are_aliases_trans ho (by rw [are_aliases_symm]; exact hva) hvb
  · rintro ⟨h1, h2⟩
    rcases (are_aliases_iff s a b).mp h1 with rfl | ⟨g, hg, hag, hbg⟩
    · exact absurd rfl hab
    apply (are_aliases_iff _ a b).mpr
    right
    have hamem : a ∈ g.filter (fun w => o.are_aliases a w) :=
      List.mem_filter.mpr ⟨hag, are_aliases_refl o a⟩
    have hbmem : b ∈ g.filter (fun w => o.are_aliases a w) :=
      List.mem_filter.mpr ⟨hbg, h2⟩
    refine ⟨g.filter (fun w => o.are_aliases a w), ?_, hamem, hbmem⟩
    exact mem_join_groups.mpr
      ⟨⟨g, hg, a, hag, rfl⟩, two_mem_length hamem hbmem hab⟩

/-! The meet: coalescing yields a disjoint partition from any input. -/

theorem insertGroup_pdisj {gs : List (List Value)} (h : PDisj gs)
    (g : List Value) : PDisj (insertGroup gs g) := by
  unfold insertGroup
  rw [List.partition_eq_filter_filter]
  constructor
  · intro c hc
    rcases List.mem_cons.mp hc with rfl | hc'
    · exact List.nodup_dedup _
    · exact h.1 c (List.mem_filter.mp hc').1
  · rintro c1 hc1 c2 hc2 ⟨v, hv1, hv2⟩
    have main :
        ∀ d, d ∈ List.filter (fun a => !(a.any fun v => decide (v ∈ g))) gs →
          ∀ w, w ∈ (g ++ (List.filter (fun h => h.any fun v => decide (v ∈ g)) gs).flatten).dedup →
            w ∉ d := by
      intro d hd w hw hwd
      rw [List.mem_filter] at hd
      have hdp := hd.2
      simp only [Bool.not_eq_true', List.any_eq_false, decide_eq_true_eq] at hdp
      rw [List.mem_dedup, List.mem_append] at hw
      rcases hw with hwg | hwf
      · exact hdp w hwd hwg
      · rw [List.mem_flatten] at hwf
        obtain ⟨t, ht, hwt⟩ := hwf
        rw [List.mem_filter] at ht
        have hdt : d = t := h.2 d hd.1 t ht.1 ⟨w, hwd, hwt⟩
        subst hdt
        rw [List.any_eq_true] at ht
        obtain ⟨x, hxd, hxg⟩ := ht.2
        simp only [decide_eq_true_eq] at hxg
        exact hdp x hxd hxg
    rcases List.mem_cons.mp hc1 with rfl | hc1' <;>
      rcases List.mem_cons.mp hc2 with h2eq | hc2'
    · rw [h2eq]
    · exact absurd hv2 (main c2 hc2' v hv1)
    · rw [h2eq] at hv2
      exact absurd hv1 (main c1 hc1' v hv2)
    · exact h.2 c1 (List.mem_filter.mp hc1').1 c2 (List.mem_filter.mp hc2').1
        ⟨v, hv1, hv2⟩

theorem coalesce_pdisj (gs : List (List Value)) : PDisj (coalesce gs) := by
  unfold coalesce
  have main : ∀ (l : List (List Value)) (acc : List (List Value)),
      PDisj acc → PDisj (l.foldl insertGroup acc) := by
    intro l
    induction l with
    | nil => intro acc h; exact h
    | cons g t ih =>
        intro acc h
        exact ih (insertGroup acc g) (insertGroup_pdisj h g)
  exact main gs [] ⟨by simp, by simp⟩

theorem meet_with_groups (s o : AliasedRegisters) :
    (s.meet_with o).groups =
      (coalesce (s.groups ++ o.groups)).filter
        (fun g => decide (2 ≤ g.length)) := rfl

theorem WF_meet_with (s o : AliasedRegisters) : WF (s.meet_with o) := by
  have hp := coalesce_pdisj (s.groups ++ o.groups)
  rw [WF, meet_with_groups]
  constructor
  · intro g hg
    rw [List.mem_filter] at hg
    exact ⟨by simpa using hg.2, hp.1 g hg.1⟩
  · rintro g1 hg1 g2 hg2 ⟨v, hv1, hv2⟩
    rw [List.mem_filter] at hg1 hg2
    exact hp.2 g1 hg1.1 g2 hg2.1 ⟨v, hv1, hv2⟩

/-- Every state reachable by the operation set is well formed. -/
theorem reachable_wf {s : AliasedRegisters} (h : Reachable s) : WF s := by
  induction h with
  | empty => exact WF_empty
  | move a b _ ih => exact WF_move ih a b
  | break_alias r _ ih => exact WF_break_alias ih r
  | clear _ => exact WF_empty
  | join _ _ ih1 ih2 => exact WF_join_with ih1 ih2
  | meet _ _ _ _ => exact WF_meet_with _ _
  | widen _ _ ih1 ih2 => exact WF_join_with ih1 ih2
  | narrow _ _ _ _ => exact WF_meet_with _ _

/-! The representative search returns the lowest-ranked eligible register. -/

theorem betterRank_irrefl (a : Option Nat) : betterRank a a = false := by
  cases a <;> simp [betterRank]

theorem betterRank_notlt_trans {a b c : Option Nat}
    (h1 : betterRank a b = false) (h2 : betterRank b c = false) :
    betterRank a c = false := by
  cases a <;> cases b <;> cases c <;> simp_all [betterRank] ; omega

theorem betterRank_lt_notlt {a b c : Option Nat}
    (h1 : betterRank a b = true) (h2 : betterRank a c = false) :
    betterRank b c = false := by
  cases a <;> cases b <;> cases c <;> simp_all [betterRank] ; omega

theorem minFold_spec (s : AliasedRegisters) :
    ∀ (l : List Value) (b x : Value),
      l.foldl (rankStep s) (some b) = some x →
      (x = b ∨ x ∈ l) ∧
        betterRank (lookupRank s.ranks b) (lookupRank s.ranks x) = false ∧
        ∀ v ∈ l,
          betterRank (lookupRank s.ranks v) (lookupRank s.ranks x) = false := by
  intro l
  induction l with
  | nil =>
      intro b x h
      simp only [List.foldl_nil, Option.some.injEq] at h
      subst h
      exact ⟨Or.inl rfl, betterRank_irrefl _, by simp⟩
  | cons v t ih =>
      intro b x h
      rw [List.foldl_cons] at h
      cases hbv : betterRank (lookupRank s.ranks v) (lookupRank s.ranks b) with
      | false =>
          rw [show rankStep s (some b) v = some b by
            simp [rankStep, hbv]] at h
          obtain ⟨hmem, hbx, hall⟩ := ih b x h
          refine ⟨?_, hbx, ?_⟩
          · rcases hmem with rfl | hm
            · exact Or.inl rfl
            · exact Or.inr (List.mem_cons_of_mem v hm)
          · intro w hw
            rcases List.mem_cons.mp hw with rfl | hw'
            · exact betterRank_notlt_trans hbv hbx
            · exact hall w hw'
      | true =>
          rw [show rankStep s (some b) v = some v by
            simp [rankStep, hbv]] at h
          obtain ⟨hmem, hvx, hall⟩ := ih v x h
          refine ⟨?_, betterRank_lt_notlt hbv hvx, ?_⟩
          · rcases hmem with rfl | hm
            · exact Or.inr (List.mem_cons_self x t)
            · exact Or.inr (List.mem_cons_of_mem v hm)
          · intro w hw
            rcases List.mem_cons.mp hw with rfl | hw'
            · exact hvx
            · exact hall w hw'

theorem minByRank_spec {s : AliasedRegisters} {cands : List Value} {x : Value}
    (h : minByRank s cands = some x) :
    x ∈ cands ∧ ∀ v ∈ cands,
      betterRank (lookupRank s.ranks v) (lookupRank s.ranks x) = false := by
  cases cands with
  | nil => simp [minByRank] at h
  | cons c t =>
      have h' : t.foldl (rankStep s) (some c) = some x := by
        rw [minByRank, List.foldl_cons] at h
        exact h
      obtain ⟨hmem, hcb, hall⟩ := minFold_spec s t c x h'
      constructor
      · rcases hmem with rfl | hm
        · exact List.mem_cons_self x t
        · exact List.mem_cons_of_mem c hm
      · intro v hv
        rcases List.mem_cons.mp hv with rfl | hv'
        · exact hcb
        · exact hall v hv'

theorem get_representative_some {s : AliasedRegisters} {r : Value}
    {b : Option Register} {x : Register}
    (h : s.get_representative r b = some x) :
    ∃ v ∈ s.eligible r b, v.is_register = true ∧ x = v.reg ∧
      ∀ w ∈ s.eligible r b,
        betterRank (lookupRank s.ranks w) (lookupRank s.ranks v) = false := by
  rw [AliasedRegisters.get_representative] at h
  cases hm : minByRank s (s.eligible r b) with
  | none => rw [hm] at h; cases h
  | some v =>
      rw [hm, Option.map_some'] at h
      obtain ⟨hv, hall⟩ := minByRank_spec hm
      have hreg : v.is_register = true := by
        have h2 := (List.mem_filter.mp hv).2
        rw [Bool.and_eq_true] at h2
        exact h2.1
      exact ⟨v, hv, hreg, (Option.some.injEq _ _ ▸ h).symm, hall⟩

theorem get_representative_le_bound {s : AliasedRegisters} {r : Value}
    {k x : Register} (h : s.get_representative r (some k) = some x) :
    x ≤ k := by
  obtain ⟨v, hv, _, rfl, _⟩ := get_representative_some h
  have h2 := (List.mem_filter.mp hv).2
  rw [Bool.and_eq_true] at h2
  simpa using h2.2

theorem get_representative_of_eligible_nil {s : AliasedRegisters} {r : Value}
    {b : Option Register} (h : s.eligible r b = []) :
    s.get_representative r b = Option.none := by
  rw [AliasedRegisters.get_representative, h]
  rfl

/-! Facts about `factsSubset`, `leq` and `equals`. -/

theorem factsSubset_iff {s o : AliasedRegisters} :
    factsSubset s o = true ↔
      ∀ g ∈ s.groups, ∀ a ∈ g, ∀ b ∈ g, o.are_aliases a b = true := by
  unfold factsSubset
  simp [List.all_eq_true]

theorem factsSubset_of_al_imp {s o : AliasedRegisters}
    (h : ∀ a b, s.are_aliases a b = true → o.are_aliases a b = true) :
    factsSubset s o = true := by
  rw [factsSubset_iff]
  intro g hg a ha b hb
  exact h a b (mem_group_are_aliases hg ha hb)

theorem leq_self (s : AliasedRegisters) : s.leq s = true :=
  factsSubset_of_al_imp (fun _ _ h => h)

theorem equals_of_al_iff {s o : AliasedRegisters}
    (h : ∀ a b, s.are_aliases a b = true ↔ o.are_aliases a b = true) :
    s.equals o = true := by
  rw [AliasedRegisters.equals, Bool.and_eq_true]
  exact ⟨factsSubset_of_al_imp (fun a b => (h a b).mp),
    factsSubset_of_al_imp (fun a b => (h a b).mpr)⟩

/-! Joining with the empty partition erases every group. -/

theorem are_aliases_empty (v w : Value) :
    AliasedRegisters.empty.are_aliases v w = decide (v = w) := by
  simp [AliasedRegisters.empty, AliasedRegisters.are_aliases]

theorem filter_eq_single_of_nodup {g : List Value} (hg : g.Nodup) {v : Value}
    (hv : v ∈ g) : g.filter (fun w => decide (v = w)) = [v] := by
  induction g with
  | nil => cases hv
  | cons a t ih =>
      rcases List.mem_cons.mp hv with rfl | hvt
      · rw [List.filter_cons_of_pos (by simp)]
        have ht : t.filter (fun w => decide (v = w)) = [] := by
          rw [List.filter_eq_nil_iff]
          intro w hw
          simp only [decide_eq_true_eq]
          rintro rfl
          exact (List.nodup_cons.mp hg).1 hw
        rw [ht]
      · have hne : v ≠ a := by
          rintro rfl
          exact (List.nodup_cons.mp hg).1 hvt
        rw [List.filter_cons_of_neg (by simp [hne])]
        exact ih (List.nodup_cons.mp hg).2 hvt

theorem join_empty_groups {A : AliasedRegisters} (hA : WF A) :
    (A.join_with AliasedRegisters.empty).groups = [] := by
  rw [List.eq_nil_iff_forall_not_mem]
  intro c hc
  obtain ⟨⟨g, hg, v, hv, hfc⟩, hlen⟩ := mem_join_groups.mp hc
  have : g.filter (fun w => AliasedRegisters.empty.are_aliases v w) = [v] := by
    have he : (fun w => AliasedRegisters.empty.are_aliases v w) =
        (fun w => decide (v = w)) := by
      funext w; exact are_aliases_empty v w
    rw [he]
    exact filter_eq_single_of_nodup (hA.1 g hg).2 hv
  rw [this] at hfc
  rw [← hfc] at hlen
  simp at hlen

/-! The effect of `break_alias`. -/

theorem break_alias_isolates (s : AliasedRegisters) (r : Value) :
    ∀ g ∈ (s.break_alias r).groups, r ∉ g := by
  intro g hg hrg
  rw [break_alias_groups, List.mem_filter] at hg
  obtain ⟨hgm, _⟩ := hg
  rw [List.mem_map] at hgm
  obtain ⟨g0, _, rfl⟩ := hgm
  have h := (List.mem_filter.mp hrg).2
  simp at h

theorem break_alias_severs {s : AliasedRegisters} (r b : Value) (hrb : r ≠ b) :
    (s.break_alias r).are_aliases r b = false := by
  cases h : (s.break_alias r).are_aliases r b
  · rfl
  · exfalso
    rcases (are_aliases_iff _ r b).mp h with h' | ⟨g, hg, hrg, _⟩
    · exact hrb h'
    · exact break_alias_isolates s r g hg hrg

theorem break_alias_keeps {s : AliasedRegisters} {g : List Value} {b c : Value}
    (hg : g ∈ s.groups) (hb : b ∈ g) (hc : c ∈ g) (hbc : b ≠ c)
    (r : Value) (hbr : b ≠ r) (hcr : c ≠ r) :
    (s.break_alias r).are_aliases b c = true := by
  apply (are_aliases_iff _ b c).mpr
  right
  have hbm : b ∈ g.filter (fun w => decide (w ≠ r)) :=
    List.mem_filter.mpr ⟨hb, by simp [hbr]⟩
  have hcm : c ∈ g.filter (fun w => decide (w ≠ r)) :=
    List.mem_filter.mpr ⟨hc, by simp [hcr]⟩
  refine ⟨g.filter (fun w => decide (w ≠ r)), ?_, hbm, hcm⟩
  rw [break_alias_groups, List.mem_filter]
  constructor
  · exact List.mem_map.mpr ⟨g, hg, rfl⟩
  · simpa using two_mem_length hbm hcm hbc

/-! Claim theorems. -/

/-- C1: for every two well-formed alias partitions, `join_with` produces the
partition in which two values are aliased iff they are aliased in both
operands (intersection of the equivalence relations computed from group
membership); the resulting relation is itself an equivalence relation; and
for P1 with groups {1,2},{3,4} and P2 with groups {1,2},{3},{4} the join has
exactly the group {1,2}. -/
theorem c1_join_intersection :
    (∀ s o : AliasedRegisters, WF s → WF o →
      (∀ a b : Value,
        (s.join_with o).are_aliases a b = true ↔
          s.are_aliases a b = true ∧ o.are_aliases a b = true) ∧
      (∀ a, (s.join_with o).are_aliases a a = true) ∧
      (∀ a b,
        (s.join_with o).are_aliases a b = (s.join_with o).are_aliases b a) ∧
      (∀ a b c, (s.join_with o).are_aliases a b = true →
        (s.join_with o).are_aliases b c = true →
        (s.join_with o).are_aliases a c = true)) ∧
    (P1ex.join_with P2ex).groups = [[Value.register 1, Value.register 2]] := by
  constructor
  · intro s o hs ho
    refine ⟨join_are_aliases hs ho, are_aliases_refl _, are_aliases_symm _, ?_⟩
    exact fun a b c h1 h2 => are_aliases_trans (WF_join_with hs ho) h1 h2
  · decide

/-- Witness for C1, instantiated at the spec's concrete join example. -/
theorem c1_join_intersection_witness :
    (P1ex.join_with P2ex).are_aliases (Value.register 1) (Value.register 2) =
        true ↔
      P1ex.are_aliases (Value.register 1) (Value.register 2) = true ∧
        P2ex.are_aliases (Value.register 1) (Value.register 2) = true :=
  (c1_join_intersection.1 P1ex P2ex (by decide) (by decide)).1
    (Value.register 1) (Value.register 2)

/-- C2 counterexample: the merges `{move(2,1), move(3,2)}` performed in the
two possible orders produce states with identical groups (the same set of
aliases), yet `get_representative` answers register 1 for one order and
register 2 for the other — the representative is not independent of the
merge order. -/
theorem c2_order_dependence_counterexample :
    seqA.equals seqB = true ∧ seqA.groups = seqB.groups ∧
      seqA.get_representative (Value.register 1) Option.none = some 1 ∧
      seqB.get_representative (Value.register 1) Option.none = some 2 := by
  decide

/-- C2 amended: for the sequence of merges actually performed,
`get_representative` returns the index of an eligible register-kind member
of the group whose insertion rank is lowest (no eligible candidate ranks
strictly better); only register-kind values are ever returned; the chosen
representative may depend on the order of the merges. -/
theorem c2_representative_lowest_rank :
    ∀ (s : AliasedRegisters) (r : Value) (b : Option Register) (x : Register),
      s.get_representative r b = some x →
      ∃ v ∈ s.eligible r b, v.is_register = true ∧ x = v.reg ∧
        ∀ w ∈ s.eligible r b,
          betterRank (lookupRank s.ranks w) (lookupRank s.ranks v) = false :=
  fun _ _ _ _ h => get_representative_some h

/-- Witness for the amended C2 at the spec's scenario: after `move(2,1);
move(3,2)` the representative of register 3's group is register 1. -/
theorem c2_representative_lowest_rank_witness :
    ∃ v ∈ seqA.eligible (Value.register 3) Option.none,
      v.is_register = true ∧ 1 = v.reg ∧
        ∀ w ∈ seqA.eligible (Value.register 3) Option.none,
          betterRank (lookupRank seqA.ranks w) (lookupRank seqA.ranks v) =
            false :=
  c2_representative_lowest_rank seqA (Value.register 3) Option.none 1
    (by decide)

/-- C3: `get_representative(r, k)` never returns a register index above the
bound `k`, and when no eligible register-kind candidate exists (the group
holds only constants, or every register member exceeds the bound) it returns
the explicit failure indicator, an ordinary negative result. -/
theorem c3_bound_and_failure :
    ∀ (s : AliasedRegisters) (r : Value) (k : Register),
      (∀ x, s.get_representative r (some k) = some x → x ≤ k) ∧
      (s.eligible r (some k) = [] →
        s.get_representative r (some k) = Option.none) :=
  fun _ _ _ =>
    ⟨fun _ h => get_representative_le_bound h,
     fun h => get_representative_of_eligible_nil h⟩

/-- Witness for C3: in the group `{7,9}` the bound 8 admits representative 7
(which is at most 8), the bound 5 excludes every member and fails, and a
constant-only query fails. -/
theorem c3_bound_and_failure_witness :
    (7 : Register) ≤ 8 ∧
      sBnd.get_representative (Value.register 9) (some 5) = Option.none ∧
      AliasedRegisters.empty.get_representative (Value.const_literal 5)
          (some 3) = Option.none :=
  ⟨(c3_bound_and_failure sBnd (Value.register 9) 8).1 7 (by decide),
   (c3_bound_and_failure sBnd (Value.register 9) 5).2 (by decide),
   (c3_bound_and_failure AliasedRegisters.empty (Value.const_literal 5) 3).2
     (by decide)⟩

/-- C4: in any state reachable by the operation set, `are_aliases` is an
equivalence relation — reflexive for every value (also values absent from
the partition), symmetric, and transitive. -/
theorem c4_equivalence :
    ∀ s : AliasedRegisters, Reachable s →
      (∀ a, s.are_aliases a a = true) ∧
      (∀ a b, s.are_aliases a b = s.are_aliases b a) ∧
      (∀ a b c, s.are_aliases a b = true → s.are_aliases b c = true →
        s.are_aliases a c = true) := by
  intro s h
  exact ⟨are_aliases_refl s, are_aliases_symm s,
    fun _ _ _ h1 h2 => are_aliases_trans (reachable_wf h) h1 h2⟩

/-- Witness for C4 at the reachable state built by `move(2,1); move(3,2)`,
applied to a constant value absent from the partition. -/
theorem c4_equivalence_witness :
    seqA.are_aliases (Value.const_literal 7) (Value.const_literal 7) = true :=
  (c4_equivalence seqA
    (by
      have h : Reachable
          ((AliasedRegisters.empty.move (Value.register 2)
            (Value.register 1)).move (Value.register 3) (Value.register 2)) :=
        Reachable.move _ _ (Reachable.move _ _ Reachable.empty)
      exact h)).1 (Value.const_literal 7)

/-- C5: after `break_alias(a)` on a partition containing a group with the
distinct members a, b, c: a is aliased to neither b nor c, a belongs to no
group (isolated), and b and c remain aliased. -/
theorem c5_detach :
    ∀ (s : AliasedRegisters) (g : List Value) (a b c : Value),
      g ∈ s.groups → a ∈ g → b ∈ g → c ∈ g →
      a ≠ b → a ≠ c → b ≠ c →
      (s.break_alias a).are_aliases a b = false ∧
      (s.break_alias a).are_aliases a c = false ∧
      (s.break_alias a).are_aliases b c = true ∧
      ∀ g' ∈ (s.break_alias a).groups, a ∉ g' := by
  intro s g a b c hg ha hb hc hab hac hbc
  exact ⟨break_alias_severs a b hab, break_alias_severs a c hac,
    break_alias_keeps hg hb hc hbc a (Ne.symm hab) (Ne.symm hac),
    break_alias_isolates s a⟩

/-- Witness for C5 at the spec's scenario: group `{1,2,3}`, detach register
2; registers 1 and 3 stay aliased while 2 is severed and isolated. -/
theorem c5_detach_witness :
    seqA.groups = [[Value.register 1, Value.register 2, Value.register 3]] ∧
      (seqA.break_alias (Value.register 2)).are_aliases (Value.register 2)
          (Value.register 1) = false ∧
      (seqA.break_alias (Value.register 2)).are_aliases (Value.register 2)
          (Value.register 3) = false ∧
      (seqA.break_alias (Value.register 2)).are_aliases (Value.register 1)
          (Value.register 3) = true ∧
      ∀ g' ∈ (seqA.break_alias (Value.register 2)).groups,
        Value.register 2 ∉ g' := by
  refine ⟨by decide, ?_⟩
  have h := c5_detach seqA
    [Value.register 1, Value.register 2, Value.register 3]
    (Value.register 2) (Value.register 1) (Value.register 3)
    (by decide) (by decide) (by decide) (by decide)
    (by decide) (by decide) (by decide)
  exact ⟨h.1, h.2.1, h.2.2.1, h.2.2.2⟩

/-- C6 counterexample: joining the partition with group `{0,1}` with the
empty partition (Top) does not leave its group membership identical — the
alias of registers 0 and 1 is lost and the result is not `equals` to the
original. -/
theorem c6_top_identity_counterexample :
    A0ex.are_aliases (Value.register 0) (Value.register 1) = true ∧
      (A0ex.join_with AliasedRegisters.empty).are_aliases (Value.register 0)
          (Value.register 1) = false ∧
      (A0ex.join_with AliasedRegisters.empty).equals A0ex = false := by
  decide

/-- C6 amended: for every well-formed partition A, `join_with` of A with
itself yields a partition `equals` to A, and `leq(A,A)` holds; but
`join_with` of A with the empty partition (Top) yields the empty partition —
Top absorbs the join rather than leaving A unchanged. -/
theorem c6_idempotence_and_top :
    ∀ A : AliasedRegisters, WF A →
      (A.join_with A).equals A = true ∧
      A.leq A = true ∧
      (A.join_with AliasedRegisters.empty).groups = [] := by
  intro A hA
  refine ⟨?_, leq_self A, join_empty_groups hA⟩
  apply equals_of_al_iff
  intro a b
  rw [join_are_aliases hA hA]
  exact ⟨fun h => h.1, fun h => ⟨h, h⟩⟩

/-- Witness for the amended C6 at the partition with groups {1,2},{3,4}. -/
theorem c6_idempotence_and_top_witness :
    (P1ex.join_with P1ex).equals P1ex = true ∧
      P1ex.leq P1ex = true ∧
      (P1ex.join_with AliasedRegisters.empty).groups = [] :=
  c6_idempotence_and_top P1ex (by decide)

/-- C7: `widen_with` produces the same result as `join_with` and
`narrow_with` the same result as `meet_with` on every pair of partitions —
no separate widening or narrowing heuristic is applied. -/
theorem c7_widen_narrow :
    ∀ s o : AliasedRegisters,
      s.widen_with o = s.join_with o ∧ s.narrow_with o = s.meet_with o :=
  fun _ _ => ⟨rfl, rfl⟩

/-- C8: `AliasDomain.update` leaves a `Bottom` element completely unchanged,
for every mutation closure (the closure is never consulted); otherwise it
applies the closure to the wrapped partition and re-normalizes the tri-state
tag. -/
theorem c8_update :
    ∀ (d : AliasDomain) (f : AliasedRegisters → AliasedRegisters),
      (d.kind = AbstractValueKind.Bottom → d.update f = d) ∧
      (d.kind ≠ AbstractValueKind.Bottom →
        d.update f = AliasDomain.normalize ⟨d.kind, f d.value⟩) := by
  intro d f
  constructor
  · intro h
    rw [AliasDomain.update, if_pos (by simp [AliasDomain.is_bottom, h])]
  · intro h
    rw [AliasDomain.update, if_neg (by simp [AliasDomain.is_bottom, h])]

/-- Witness for C8: a Bottom element survives an update unchanged under a
group-changing closure, and a Value element is mutated then normalized. -/
theorem c8_update_witness :
    (AliasDomain.mk AbstractValueKind.Bottom P1ex).update
        (fun s => s.move (Value.register 5) (Value.register 6)) =
      AliasDomain.mk AbstractValueKind.Bottom P1ex ∧
    (AliasDomain.mk AbstractValueKind.Value P1ex).update
        (fun s => s.clear) =
      AliasDomain.normalize ⟨AbstractValueKind.Value, P1ex.clear⟩ :=
  ⟨(c8_update (AliasDomain.mk AbstractValueKind.Bottom P1ex) _).1 rfl,
   (c8_update (AliasDomain.mk AbstractValueKind.Value P1ex) _).2 (by decide)⟩

/-- C9: `Value` equality is structural — values whose kinds differ are never
equal (in particular a literal-low and a literal-high value carrying the
same 64-bit payload are unequal, so the two halves of a wide literal can
never merge), and any two none-kind values are equal. -/
theorem c9_value_equality :
    (∀ a b : Value, a.kind ≠ b.kind → Value.beq a b = false) ∧
    (∀ l : Int,
      Value.beq (Value.const_literal l) (Value.const_literal_upper l) =
        false) ∧
    Value.beq Value.none Value.none = true := by
  refine ⟨?_, fun _ => rfl, rfl⟩
  intro a b h
  cases a <;> cases b <;> first | rfl | exact absurd rfl h

/-- Witness for C9: a register value and a literal value are unequal. -/
theorem c9_value_equality_witness :
    Value.beq (Value.register 3) (Value.const_literal 3) = false :=
  c9_value_equality.1 (Value.register 3) (Value.const_literal 3) (by decide)

/-- C10: the reserved result-register index is the concrete value
`2^32 - 2`; the register value built from it is unequal to the register
value of every user index below it; and under any addressing bound strictly
below `2^32 - 2`, `get_representative` can never return the result
register. -/
theorem c10_result_register :
    RESULT_REGISTER = 4294967294 ∧
    (∀ i : Register, i < RESULT_REGISTER →
      Value.beq (Value.register RESULT_REGISTER) (Value.register i) =
        false) ∧
    (∀ (s : AliasedRegisters) (r : Value) (k x : Register),
      k < RESULT_REGISTER → s.get_representative r (some k) = some x →
      x ≠ RESULT_REGISTER) := by
  have hRR : RESULT_REGISTER = 4294967294 := by decide
  refine ⟨hRR, ?_, ?_⟩
  · intro i hi
    rw [hRR] at hi
    simp only [Value.beq, hRR, decide_eq_false_iff_not]
    exact Nat.ne_of_gt hi
  · intro s r k x hk h
    have hx := get_representative_le_bound h
    rw [hRR] at hk ⊢
    exact Nat.ne_of_lt (Nat.lt_of_le_of_lt hx hk)

/-- Witness for C10: register 0 is unequal to the result register, and under
bound 8 the representative of the group `{7,9}` is 7, which is not the
result register. -/
theorem c10_result_register_witness :
    Value.beq (Value.register RESULT_REGISTER) (Value.register 0) = false ∧
      (7 : Register) ≠ RESULT_REGISTER :=
  ⟨c10_result_register.2.1 0 (by decide),
   c10_result_register.2.2 sBnd (Value.register 9) 8 7 (by decide)
     (by decide)⟩

end aliased_registers
